import Mathlib

/-!
Verification of the evidence-verifiability pipeline of the
Clinical-RAG-Active-Verifiability repository.

Shallow embedding conventions used throughout this file:
* Python strings are `List Char` (`Str`); string constants are written
  with `.toList`.
* Python floats are exact rationals (`ℚ`): every constant in the scored
  pipeline (0.2, 0.25, 0.3, 0.4, 0.9, 1.0) is an exact decimal, and the
  source rounds every reported value (`round(x, k)`), so exact-rational
  arithmetic reproduces the comparisons and reported values of the code.
  `round(x, k)` is Python's banker's rounding, modelled exactly on ℚ.
* Python dicts are association lists in insertion order; writing to an
  existing key updates it in place, otherwise the pair is appended
  (`pyInsert`), matching CPython dict semantics observably.
* `x in s` on strings is `<:+:` (contiguous-sublist / substring).
-/

/-- Python strings, as lists of characters. -/
abbrev Str := List Char

/-- ASCII whitespace stripped by `str.strip()` / matched by `\s`. -/
def isSpacePy (c : Char) : Bool :=
  c = ' ' ∨ c = '\t' ∨ c = '\n' ∨ c = '\r' ∨ c = '\x0b' ∨ c = '\x0c'

/-- `str.strip()`: drop whitespace from both ends. -/
def trimPy (s : Str) : Str :=
  ((s.dropWhile isSpacePy).reverse.dropWhile isSpacePy).reverse

/-- `str.lower()` (ASCII case folding, which covers the source's lexicons). -/
def lowerPy (s : Str) : Str := s.map Char.toLower

/-- Python's `round` on exact rationals: round half to even (banker's
rounding), as an integer. -/
def pyRoundInt (q : ℚ) : ℤ :=
  let n := ⌊q⌋
  let frac := q - (n : ℚ)
  if frac < 1/2 then n
  else if (1:ℚ)/2 < frac then n + 1
  else if Even n then n else n + 1

/-- Python's `round(q, 2)`. -/
def round2 (q : ℚ) : ℚ := (pyRoundInt (q * 100) : ℚ) / 100

/-- Python's `round(q, 3)`. -/
def round3 (q : ℚ) : ℚ := (pyRoundInt (q * 1000) : ℚ) / 1000

/-! ## Documents (§3 of the spec; dict shape used throughout `src/modules`) -/

/-- A retrieved document as the pipeline consumes it: `pmid`, `title`,
`abstract`, `publication_type` and `year`.  `year = none` models a missing or
non-numeric year (both contribute nothing to the recency bonus: `doc.get
('year', 0)` yields 0 for a missing year and `int(...)` raising is caught). -/
structure Doc where
  pmid : Str
  title : Str
  abstract : Str
  publication_type : List Str
  year : Option ℤ
deriving DecidableEq, Repr

/-! ## Conflict detection (`src/modules/conflict_detection.py`)

The two lexicons are regular expressions whose alternatives are a literal
stem followed by at most one capture group of literal alternatives
(possibly optional).  `re.findall` on such a pattern returns, per
non-overlapping leftmost match, the tuple of all capture groups of the
combined pattern; the code stores `''.join` of that tuple, which is exactly
the capture of the matching alternative's own group (every other group is
empty).  `RAlt` encodes one alternative; `findAll` implements the
left-to-right, non-overlapping, first-alternative-wins scan of `findall`,
case-insensitively, returning the joined group captures (taken from the
original text, so with original case). -/

structure RAlt where
  lit : Str
  galts : List Str
  opt : Bool
deriving Repr

/-- Match the lowercase literal `p` at the head of `s` case-insensitively;
return the consumed original characters and the rest. -/
def matchCI : Str → Str → Option (Str × Str)
  | [], s => some ([], s)
  | _ :: _, [] => none
  | p :: ps, c :: cs =>
    if p = c.toLower then (matchCI ps cs).map (fun pr => (c :: pr.1, pr.2))
    else none

/-- Try the group's alternatives in order (regex alternation). -/
def matchGroup : List Str → Str → Option (Str × Str)
  | [], _ => none
  | g :: gs, s =>
    match matchCI g s with
    | some r => some r
    | none => matchGroup gs s

/-- Match one alternative of the lexicon at the head of `s`: the literal stem,
then its capture group (if any).  Returns (group capture, rest of string). -/
def matchRAlt (a : RAlt) (s : Str) : Option (Str × Str) :=
  match matchCI a.lit s with
  | none => none
  | some (_, rest) =>
    match a.galts with
    | [] => some ([], rest)
    | _ :: _ =>
      match matchGroup a.galts rest with
      | some r => some r
      | none => if a.opt then some ([], rest) else none

/-- First alternative that matches at the head of `s` (regex alternation over
the whole lexicon). -/
def matchAlts : List RAlt → Str → Option (Str × Str)
  | [], _ => none
  | a :: rest, s =>
    match matchRAlt a s with
    | some r => some r
    | none => matchAlts rest s

/-- The scan of `re.findall`: at each position try the alternation; on a match
record the joined group capture and continue after the match, otherwise
advance one character.  Fuel-driven (the fuel `s.length` suffices: every
lexicon alternative consumes its non-empty literal stem). -/
def findAllGo (alts : List RAlt) : ℕ → Str → List Str
  | 0, _ => []
  | _ + 1, [] => []
  | n + 1, c :: cs =>
    match matchAlts alts (c :: cs) with
    | some (cap, rest) => cap :: findAllGo alts n rest
    | none => findAllGo alts n cs

/-- `PATTERN.findall(text)` for a lexicon, returning the joined group captures. -/
def findAll (alts : List RAlt) (s : Str) : List Str := findAllGo alts s.length s

/-- `SUPPORTIVE_TERMS`: `improv(e|ed|ement)`, `benefit(s|ed)?`,
`effective|efficacy`, `survival advantage`, `response rate`, `superior(ity)?`. -/
def SUPPORTIVE_TERMS : List RAlt :=
  [⟨"improv".toList, ["e".toList, "ed".toList, "ement".toList], false⟩,
   ⟨"benefit".toList, ["s".toList, "ed".toList], true⟩,
   ⟨"effective".toList, [], false⟩,
   ⟨"efficacy".toList, [], false⟩,
   ⟨"survival advantage".toList, [], false⟩,
   ⟨"response rate".toList, [], false⟩,
   ⟨"superior".toList, ["ity".toList], true⟩]

/-- `RISK_TERMS`: `toxicit(y|ies)`, `adverse( event|s)?`, `risk(s)?`,
`harm(s|ful)?`, `side effect(s)?`, `complication(s)?`, `safety concern(s)?`,
`contraindicat(ed|ion)`. -/
def RISK_TERMS : List RAlt :=
  [⟨"toxicit".toList, ["y".toList, "ies".toList], false⟩,
   ⟨"adverse".toList, [" event".toList, "s".toList], true⟩,
   ⟨"risk".toList, ["s".toList], true⟩,
   ⟨"harm".toList, ["s".toList, "ful".toList], true⟩,
   ⟨"side effect".toList, ["s".toList], true⟩,
   ⟨"complication".toList, ["s".toList], true⟩,
   ⟨"safety concern".toList, ["s".toList], true⟩,
   ⟨"contraindicat".toList, ["ed".toList, "ion".toList], false⟩]

/-- Per-document tag returned by `tag_document`. -/
structure DocTag where
  pmid : Str
  supportive : Bool
  risk : Bool
  support_terms : List Str
  risk_terms : List Str
deriving DecidableEq, Repr

/-- `tag_document(doc)`: case-insensitive lexicon search over
`f"{title} {abstract}"`; the stored term lists are the deduplicated joined
group captures (`list(set(...))`; a Python set's iteration order is
unspecified, modelled here as `List.dedup`). -/
def tag_document (doc : Doc) : DocTag :=
  let text := doc.title ++ [' '] ++ doc.abstract
  let sup_hits := findAll SUPPORTIVE_TERMS text
  let risk_hits := findAll RISK_TERMS text
  { pmid := doc.pmid
    supportive := !sup_hits.isEmpty
    risk := !risk_hits.isEmpty
    support_terms := sup_hits.dedup
    risk_terms := risk_hits.dedup }

/-- Corpus-level summary returned by `detect_conflicts`. -/
structure ConflictSummary where
  detected : Bool
  supportive : ℕ
  risk : ℕ
  doc_tags : List DocTag
deriving DecidableEq, Repr

/-- The accumulation loop of `detect_conflicts`. -/
def detectGo : List Doc → ℕ → ℕ → List DocTag → ℕ × ℕ × List DocTag
  | [], sup, risk, tags => (sup, risk, tags)
  | doc :: rest, sup, risk, tags =>
    let t := tag_document doc
    detectGo rest (sup + if t.supportive then 1 else 0)
      (risk + if t.risk then 1 else 0) (tags ++ [t])

/-- `detect_conflicts(documents)`. -/
def detect_conflicts (documents : List Doc) : ConflictSummary :=
  let r := detectGo documents 0 0 []
  { detected := decide (r.1 > 0 ∧ r.2.1 > 0)
    supportive := r.1
    risk := r.2.1
    doc_tags := r.2.2 }

/-! ## Evidence prioritisation (`src/modules/evidence_scoring.py`) -/

/-- `SAFETY_TERMS` of `evidence_scoring.py` (stems, lowercase). -/
def SAFETY_STEMS : List Str :=
  ["adverse".toList, "toxicity".toList, "contraindicat".toList,
   "mortality".toList, "risk".toList, "harm".toList, "side effect".toList,
   "complication".toList, "black box".toList, "warning".toList]

/-- `SAFETY_STUDY_HINTS` of `evidence_scoring.py`. -/
def SAFETY_STUDY_HINTS : List Str :=
  ["pharmacovigilance".toList, "post-marketing".toList, "registry".toList,
   "surveillance".toList, "real-world".toList]

/-- `HIGH_VALUE_TYPES.get(p, 0.0)`. -/
def highValueWeight (p : Str) : ℚ :=
  if p = "Randomized Controlled Trial".toList then 1
  else if p = "Systematic Review".toList then 1
  else if p = "Meta-Analysis".toList then 9/10
  else 0

/-- `_term_hits(text, terms)`: `sum(1 for t in terms if re.search(rf"{re.escape
(t)}\w*", text, re.I))`.  `re.escape(t)` is the literal stem and the trailing
`\w*` can match the empty string, so the search succeeds exactly when the stem
occurs somewhere in `text` (both the callers' text and the stems are
lowercase, so the `re.I` flag adds nothing); note there is no word-boundary
anchor, so a stem inside a larger word also matches. -/
def term_hits (text : Str) (terms : List Str) : ℕ :=
  terms.foldl (fun n t => if t <:+: text then n + 1 else n) 0

/-- `score_document(doc, query_terms)`: additive score, rounded to 3 decimal
places.  The running float sum is modelled as an exact rational sum. -/
def score_document (doc : Doc) (query_terms : List Str) : ℚ :=
  let text := lowerPy (doc.title ++ [' '] ++ doc.abstract)
  let s1 : ℚ := query_terms.foldl
    (fun sc term => if term ≠ [] ∧ lowerPy term <:+: text then sc + 2/10 else sc) 0
  let s2 : ℚ := doc.publication_type.foldl (fun sc p => sc + highValueWeight p) s1
  let s3 : ℚ := s2 + (1/4) * term_hits text SAFETY_STEMS
  let s4 : ℚ := s3 + (3/10) * term_hits text SAFETY_STUDY_HINTS
  let s5 : ℚ := s4 + (match doc.year with
    | some y => if y ≥ 2022 then 4/10 else if y ≥ 2019 then 25/100 else 0
    | none => 0)
  round3 s5

/-- `\w` of `re.split(r"\W+", query)` (ASCII word characters). -/
def isWordChar (c : Char) : Bool := c.isAlphanum ∨ c = '_'

/-- `[t for t in re.split(r"\W+", query) if t]`: the maximal runs of word
characters of the query. -/
def queryTermsGo : Str → Str → List Str
  | [], acc => if acc = [] then [] else [acc.reverse]
  | c :: cs, acc =>
    if isWordChar c then queryTermsGo cs (c :: acc)
    else if acc = [] then queryTermsGo cs []
    else acc.reverse :: queryTermsGo cs []

def queryTerms (query : Str) : List Str := queryTermsGo query []

/-- A document after `prioritise_documents` stored its `priority_score`. -/
structure SDoc where
  doc : Doc
  priority_score : ℚ
deriving DecidableEq, Repr

/-- The sort key comparison of `documents.sort(key=lambda x:
(-x['priority_score'], str(x['pmid'])))`: higher score first, ties by
ascending pmid (lexicographic, as Python compares strings). -/
def sortKeyLe (a b : SDoc) : Prop :=
  b.priority_score < a.priority_score ∨
    (a.priority_score = b.priority_score ∧ a.doc.pmid ≤ b.doc.pmid)

/-- The corresponding strict order: strictly descending score, ties broken by
strictly ascending pmid. -/
def sortKeyLt (a b : SDoc) : Prop :=
  b.priority_score < a.priority_score ∨
    (a.priority_score = b.priority_score ∧ a.doc.pmid < b.doc.pmid)

instance : DecidableRel sortKeyLe := fun a b => by
  unfold sortKeyLe; infer_instance

instance : DecidableRel sortKeyLt := fun a b => by
  unfold sortKeyLt; infer_instance

instance : IsTotal SDoc sortKeyLe where
  total a b := by
    unfold sortKeyLe
    rcases lt_trichotomy a.priority_score b.priority_score with h | h | h
    · exact Or.inr (Or.inl h)
    · rcases le_total a.doc.pmid b.doc.pmid with hp | hp
      · exact Or.inl (Or.inr ⟨h, hp⟩)
      · exact Or.inr (Or.inr ⟨h.symm, hp⟩)
    · exact Or.inl (Or.inl h)

instance : IsTrans SDoc sortKeyLe where
  trans a b c hab hbc := by
    unfold sortKeyLe at *
    rcases hab with h1 | ⟨e1, p1⟩
    · rcases hbc with h2 | ⟨e2, _⟩
      · exact Or.inl (h2.trans h1)
      · exact Or.inl (e2 ▸ h1)
    · rcases hbc with h2 | ⟨e2, p2⟩
      · exact Or.inl (by rw [e1]; exact h2)
      · exact Or.inr ⟨e1.trans e2, p1.trans p2⟩

/-- `prioritise_documents(documents, query)`: score every document, then sort
deterministically (score descending, pmid ascending).  Python's `list.sort` is
a stable comparison sort; with the claims' distinct-pmid hypothesis the key
function is injective, so any comparison sort produces the same sequence,
modelled by `List.insertionSort`. -/
def prioritise_documents (documents : List Doc) (query : Str) : List SDoc :=
  let qts := queryTerms query
  let scored := documents.map (fun d => SDoc.mk d (score_document d qts))
  scored.insertionSort sortKeyLe

/-! ## Python dict model -/

/-- CPython dict assignment `m[k] = v` observably: an existing key keeps its
position and gets the new value, a new key is appended. -/
def pyInsert {β : Type} (m : List (Str × β)) (k : Str) (v : β) : List (Str × β) :=
  if m.any (fun kv => kv.1 = k) then
    m.map (fun kv => if kv.1 = k then (k, v) else kv)
  else m ++ [(k, v)]

/-- `m.get(k)` / `m[k]` lookup on the association-list dict model. -/
def pyGet {β : Type} (m : List (Str × β)) (k : Str) : Option β :=
  (m.find? (fun kv => kv.1 = k)).map (fun kv => kv.2)

/-- `k in m` on the dict model. -/
def pyHasKey {β : Type} (m : List (Str × β)) (k : Str) : Bool :=
  m.any (fun kv => kv.1 = k)

/-! ## Attestation (`src/modules/attestation.py`) -/

/-- `claim if claim.endswith((".", "!", "?")) else claim + "."`. -/
def addDot (claim : Str) : Str :=
  if claim.getLast? = some '.' ∨ claim.getLast? = some '!' ∨ claim.getLast? = some '?'
  then claim else claim ++ ['.']

/-- The splitting scan of `re.split(r"(?<=[.!?])\s+", text)`: a maximal
whitespace run whose first character is preceded by `.`, `!` or `?` separates
two parts.  `acc` holds the current part reversed (so the lookbehind is its
head); the lookbehind cannot fire at the start of the text.  Fuel-driven to
keep the recursion structural; the caller passes `s.length`, which is exact:
every step consumes at least one character. -/
def splitSentGo : ℕ → Str → Str → List Str
  | 0, _, acc => [acc.reverse]
  | _ + 1, [], acc => [acc.reverse]
  | n + 1, c :: rest, acc =>
    if isSpacePy c ∧ (acc.head? = some '.' ∨ acc.head? = some '!' ∨ acc.head? = some '?')
    then acc.reverse :: splitSentGo n (rest.dropWhile isSpacePy) []
    else splitSentGo n rest (c :: acc)

/-- `_split_sentences(text)`: split the stripped text on sentence-terminal
punctuation followed by whitespace, keep the stripped parts longer than 30
characters. -/
def split_sentences (text : Str) : List Str :=
  let parts := splitSentGo (trimPy text).length (trimPy text) []
  (parts.map trimPy).filter (fun p => p.length > 30)

/-- One candidate attestation value of the backend's JSON payload, after the
`str(...)` coercions the validator applies: a `pmid` and a `source_text`. -/
structure CandMeta where
  pmid : Str
  source_text : Str
deriving DecidableEq, Repr

/-- The parsed JSON payload of the generative backend: a synthesis string and
an `attestations` mapping (adversarial payloads included: any claims, any
pmids, any source texts). -/
structure Payload where
  synthesis : Str
  attestations : List (Str × CandMeta)
deriving DecidableEq, Repr

/-- An accepted attestation record `{pmid, source_text, document_title}`. -/
structure AttRecord where
  pmid : Str
  source_text : Str
  document_title : Str
deriving DecidableEq, Repr

/-- `docs_by_pmid = {str(d.get("pmid")): d for d in documents}`. -/
def docsByPmid (documents : List Doc) : List (Str × Doc) :=
  documents.foldl (fun m d => pyInsert m d.pmid d) []

/-- The filtering loop of `_validate_json_claims`: keep a candidate only if
its stripped pmid and source text are non-empty, the pmid is a key of
`docs_by_pmid`, and the source text is a literal substring of that document's
abstract; accepted claims get a terminal dot and go into the result dict. -/
def validateGo (dbp : List (Str × Doc)) :
    List (Str × CandMeta) → List (Str × AttRecord) → List (Str × AttRecord)
  | [], acc => acc
  | (claim, meta) :: rest, acc =>
    let pmid := trimPy meta.pmid
    let src_txt := trimPy meta.source_text
    match pyGet dbp pmid with
    | none => validateGo dbp rest acc
    | some d =>
      if pmid ≠ [] ∧ src_txt ≠ [] ∧ src_txt <:+: d.abstract then
        validateGo dbp rest (pyInsert acc (addDot claim) ⟨pmid, src_txt, d.title⟩)
      else validateGo dbp rest acc

/-- `_validate_json_claims(data, docs_by_pmid)`: validates every candidate
claim of the payload and caps the accepted dict to its first 6 items. -/
def validate_json_claims (data : Payload) (dbp : List (Str × Doc)) :
    Str × List (Str × AttRecord) :=
  (trimPy data.synthesis, (validateGo dbp data.attestations []).take 6)

/-- The inner `for s in sents[:2]` loop of the deterministic fallback:
attest each qualifying span to itself, skipping claims already present. -/
def addSpans (d : Doc) : List Str → List (Str × AttRecord) → List (Str × AttRecord)
  | [], atts => atts
  | s :: rest, atts =>
    let claim := addDot s
    addSpans d rest
      (if pyHasKey atts claim then atts else atts ++ [(claim, ⟨d.pmid, s, d.title⟩)])

/-- One iteration of the fallback's `for d in documents[:3]` loop, carrying
the attestation dict and the synthesis parts. -/
def fallbackStep (st : List (Str × AttRecord) × List Str) (d : Doc) :
    List (Str × AttRecord) × List Str :=
  let sents := split_sentences d.abstract
  (addSpans d (sents.take 2) st.1,
   match sents with
   | [] => st.2
   | s :: _ => st.2 ++ [s])

/-- The deterministic fallback path of `generate_with_attestation`: up to two
sentence spans from each of the first three documents, each attested to
itself; the synthesis joins the first spans of the first two contributing
documents and is marked as a deterministic extraction. -/
def deterministicFallback (documents : List Doc) : Str × List (Str × AttRecord) :=
  let st := (documents.take 3).foldl fallbackStep ([], [])
  ((List.intercalate [' '] (st.2.take 2)) ++ " (Deterministic Extraction)".toList,
   st.1)

/-- `generate_with_attestation(query, documents, api_key)`.  The generative
backend is external and non-deterministic; its observable outcome is either a
parsed JSON payload (`some data`) or any failure — no key, SDK missing,
transport error, quota, malformed JSON — (`none`).  With a payload the
validated claims are returned when non-empty; otherwise, and on every
failure, the deterministic fallback runs.  `query` only feeds the backend
prompt. -/
def generate_with_attestation (backend : Option Payload) (query : Str)
    (documents : List Doc) : Str × List (Str × AttRecord) :=
  let dbp := docsByPmid documents
  let _ := query
  match backend with
  | some data =>
    let r := validate_json_claims data dbp
    if r.2 ≠ [] then r else deterministicFallback documents
  | none => deterministicFallback documents

/-! ## Guideline alignment (`src/modules/guideline_retrieval.py` and
`src/modules/guideline_checker.py`) -/

/-- A guideline chunk as supplied to the aligner (text plus provenance). -/
structure GChunk where
  source : Str
  page : Str
  text : Str
deriving DecidableEq, Repr

/-- A non-`None` alignment result `{source, page, score, ...}`. -/
structure AlignRes where
  source : Str
  page : Str
  score : ℚ
deriving DecidableEq, Repr

/-- `align_claims_to_guidelines(claims, guideline_chunks, threshold=0.15)`.
The TF-IDF vector space and cosine similarity come from scikit-learn
(an external library); the per-claim best-match-above-threshold outcome is
modelled by the oracle `tfidfBest`.  The guard branch under verification —
`if not guideline_chunks or not claims: return {claim: None for claim in
claims}` — never consults the oracle. -/
def align_claims_to_guidelines
    (tfidfBest : List GChunk → Str → Option AlignRes)
    (claims : List Str) (guideline_chunks : List GChunk) :
    List (Str × Option AlignRes) :=
  if guideline_chunks.isEmpty || claims.isEmpty then
    claims.foldl (fun m c => pyInsert m c none) []
  else
    claims.foldl (fun m c => pyInsert m c (tfidfBest guideline_chunks c)) []

/-- `compute_ga_metrics(alignment)` of `guideline_checker.py`: `(GA, matched,
total)` where `matched` counts the non-`None` values and `GA = matched/total`
(0 for an empty mapping). -/
def compute_ga_metrics (alignment : List (Str × Option AlignRes)) : ℚ × ℕ × ℕ :=
  let total := alignment.length
  let matched : ℕ := alignment.foldl (fun n kv => if kv.2.isSome then n + 1 else n) 0
  let ga : ℚ := if total ≠ 0 then (matched : ℚ) / (total : ℚ) else 0
  (ga, matched, total)

/-! ## CRTS aggregation (`src/modules/crts.py`) -/

/-- A Python value stored in the attestation mapping, as `compute_crts`
inspects it: a dict (whose string fields it may look up), a plain string, or
`None`.  Only truthiness and the `"source_text"` key membership matter. -/
inductive PyVal where
  | pdict : List (Str × Str) → PyVal
  | pstr : Str → PyVal
  | pnone : PyVal
deriving DecidableEq, Repr

/-- Python truthiness of a `PyVal` (non-empty dict / non-empty string). -/
def PyVal.truthy : PyVal → Bool
  | .pdict f => !f.isEmpty
  | .pstr s => !s.isEmpty
  | .pnone => false

/-- `isinstance(v, dict) and "source_text" in v`. -/
def PyVal.isGranular : PyVal → Bool
  | .pdict f => f.any (fun kv => kv.1 = "source_text".toList)
  | _ => false

/-- The record `compute_crts` returns: `{"sf", "crr", "ar", "ga", "L"}`.
It contains neither a composite `crts` value nor the weights. -/
structure CRTSOut where
  sf : ℚ
  crr : ℚ
  ar : ℚ
  ga : ℚ
  L : ℚ
deriving DecidableEq, Repr

/-- `compute_crts(attestations, conflict_summary, surfaced_risks_count=0,
nice_matches=None)` as `src/modules/crts.py` defines it.  Note the signature:
there is no `k_seconds`, no `weights` and no `guideline_alignment` parameter,
and `ar = 1 / L`.  `nice_matches = none`/empty list are both falsy; a list of
matches is modelled directly. -/
def compute_crts (attestations : List (Str × PyVal)) (conflict_summary : ConflictSummary)
    (surfaced_risks_count : ℕ) (nice_matches : List AlignRes) : CRTSOut :=
  let n_claims := attestations.length
  let sf : ℚ := if n_claims > 0 then
      ((attestations.foldl (fun k kv => if kv.2.truthy then k + 1 else k) 0 : ℕ) : ℚ)
        / (n_claims : ℚ)
    else 0
  let detected_conflicts := conflict_summary.risk
  let crr : ℚ := if detected_conflicts > 0 then
      min 1 ((surfaced_risks_count : ℚ) / (detected_conflicts : ℚ))
    else 1
  let has_granular := attestations.any (fun kv => kv.2.isGranular)
  let L : ℚ := if has_granular then 2 else 5
  let ar : ℚ := 1 / L
  let ga : ℚ := if !nice_matches.isEmpty then 1 else 0
  ⟨round2 sf, round2 crr, round2 ar, round2 ga, L⟩

/-! ## Weight normalisation (`src/app.py`, lines 41–45) -/

/-- The sidebar weight renormalisation of `app.py`: fall back to the default
0.30/0.30/0.20/0.20 split when the slider sum is zero, else divide by the
sum. -/
def normalise_weights (alpha beta gamma delta : ℚ) : ℚ × ℚ × ℚ × ℚ :=
  let w_sum := alpha + beta + gamma + delta
  if w_sum = 0 then (3/10, 3/10, 2/10, 2/10)
  else (alpha / w_sum, beta / w_sum, gamma / w_sum, delta / w_sum)

/-! ## Helper lemmas -/

lemma detectGo_spec (docs : List Doc) : ∀ (sup risk : ℕ) (tags : List DocTag),
    detectGo docs sup risk tags =
      (sup + (docs.filter (fun d => (tag_document d).supportive)).length,
       risk + (docs.filter (fun d => (tag_document d).risk)).length,
       tags ++ docs.map tag_document) := by
  induction docs with
  | nil => intro sup risk tags; simp [detectGo]
  | cons d rest ih =>
    intro sup risk tags
    simp only [detectGo, ih, List.filter_cons, List.map_cons]
    by_cases hs : (tag_document d).supportive <;>
      by_cases hr : (tag_document d).risk <;>
      simp [hs, hr] <;> omega

lemma term_hits_foldl (text : Str) (terms : List Str) : ∀ n : ℕ,
    terms.foldl (fun n t => if t <:+: text then n + 1 else n) n =
      n + (terms.filter (fun t => decide (t <:+: text))).length := by
  induction terms with
  | nil => intro n; simp
  | cons t rest ih =>
    intro n
    by_cases h : t <:+: text <;> simp [List.filter_cons, h, ih] <;> omega

lemma term_hits_eq_filter_length (text : Str) (terms : List Str) :
    term_hits text terms = (terms.filter (fun t => decide (t <:+: text))).length := by
  simpa using term_hits_foldl text terms 0

/-! ## C4 — conflict summary invariant -/

/-- C4: for every document list, `detect_conflicts` reports
`detected == (supportive_count > 0 and risk_count > 0)`, where the supportive
count is the number of documents whose tag has at least one supportive
lexicon hit and the risk count the number with at least one risk hit; the two
filters are independent, so a document tagged with both lexicons is counted
in both. -/
theorem c4_detect_conflicts_invariant (documents : List Doc) :
    ((detect_conflicts documents).detected = true ↔
      0 < (detect_conflicts documents).supportive ∧
        0 < (detect_conflicts documents).risk)
    ∧ (detect_conflicts documents).supportive =
        (documents.filter (fun d => (tag_document d).supportive)).length
    ∧ (detect_conflicts documents).risk =
        (documents.filter (fun d => (tag_document d).risk)).length
    ∧ (detect_conflicts documents).doc_tags = documents.map tag_document := by
  simp [detect_conflicts, detectGo_spec]

/-! ## C7 — per-document tag contents -/

/-- C7 counterexample: the claim says the recorded term strings are the
literal matched terms — e.g. a document containing "improved" records
"improved", and no empty strings appear.  In fact `re.findall` on the grouped
lexicon patterns returns the group captures, so a document titled "improved"
records the fragment "e" (the capture of `improv(e|ed|ement)`), not
"improved", and a document titled "effective" (a groupless alternative)
records the empty string. -/
theorem c7_counterexample :
    (tag_document ⟨"1".toList, "improved".toList, [], [], none⟩).support_terms
        = ["e".toList]
    ∧ "improved".toList ∉
        (tag_document ⟨"1".toList, "improved".toList, [], [], none⟩).support_terms
    ∧ (tag_document ⟨"2".toList, "effective".toList, [], [], none⟩).support_terms
        = [[]] := by
  decide

/-- C7 amended: for every document the tag records which lexicons matched
(possibly both, possibly neither) over the case-insensitive search of
title + " " + abstract, and `support_terms` / `risk_terms` contain exactly
the deduplicated joined group captures of the `re.findall` matches — which
for these grouped patterns are capture fragments such as "e" for "improved",
or the empty string for groupless or optional-group matches — rather than the
full matched term strings. -/
theorem c7_tag_terms_amended (doc : Doc) :
    (tag_document doc).support_terms.Nodup
    ∧ (tag_document doc).risk_terms.Nodup
    ∧ ((tag_document doc).supportive = true ↔
        (tag_document doc).support_terms ≠ [])
    ∧ ((tag_document doc).risk = true ↔ (tag_document doc).risk_terms ≠ [])
    ∧ (∀ s : Str, s ∈ (tag_document doc).support_terms ↔
        s ∈ findAll SUPPORTIVE_TERMS (doc.title ++ [' '] ++ doc.abstract))
    ∧ (∀ s : Str, s ∈ (tag_document doc).risk_terms ↔
        s ∈ findAll RISK_TERMS (doc.title ++ [' '] ++ doc.abstract)) := by
  refine ⟨List.nodup_dedup _, List.nodup_dedup _, ?_, ?_, ?_, ?_⟩ <;>
    simp [tag_document, List.isEmpty_iff, List.dedup_eq_nil, List.mem_dedup]

/-! ## C8 — safety-term scoring -/

/-- C8 counterexample: the claim says stem matching is word-boundary-aware,
so "risk" occurring only inside "brisk" must not count and a document whose
text matches no safety family at a word boundary scores 0.  The code's
`re.search(rf"{re.escape(t)}\w*", ...)` has no boundary anchor: the document
titled "brisk" (no query terms, no publication type, no year) scores 0.25
from the `risk` stem. -/
theorem c8_counterexample :
    score_document ⟨"1".toList, "brisk".toList, [], [], none⟩ [] = 1/4
    ∧ ((1 : ℚ)/4 ≠ 0) := by
  constructor
  · with_unfolding_all decide
  · norm_num

/-- C8 amended: `score_document` adds exactly 0.25 per distinct safety-term
lexical family whose stem occurs as a substring of the lowercased
title + " " + abstract — matching is not word-boundary-aware, so a stem
inside a larger word ("risk" inside "brisk") does count — and each family
contributes at most once regardless of how often its stem occurs. -/
theorem c8_safety_scoring_amended (doc : Doc) (query_terms : List Str) :
    (score_document doc query_terms =
      round3 ((query_terms.foldl
          (fun sc term =>
            if term ≠ [] ∧ lowerPy term <:+: lowerPy (doc.title ++ [' '] ++ doc.abstract)
            then sc + 2/10 else sc) 0 +
        doc.publication_type.foldl (fun sc p => sc + highValueWeight p) 0 +
        (1/4) * ((SAFETY_STEMS.filter
          (fun t => decide (t <:+: lowerPy (doc.title ++ [' '] ++ doc.abstract)))).length) +
        (3/10) * ((SAFETY_STUDY_HINTS.filter
          (fun t => decide (t <:+: lowerPy (doc.title ++ [' '] ++ doc.abstract)))).length) +
        (match doc.year with
          | some y => if y ≥ 2022 then 4/10 else if y ≥ 2019 then 25/100 else 0
          | none => 0))))
    ∧ score_document ⟨"1".toList, "risk risk risk".toList, [], [], none⟩ [] = 1/4
    ∧ score_document ⟨"1".toList, "brisk".toList, [], [], none⟩ [] = 1/4 := by
  refine ⟨?_, by with_unfolding_all decide, by with_unfolding_all decide⟩
  have hfold : ∀ (l : List Str) (a : ℚ),
      l.foldl (fun sc p => sc + highValueWeight p) a =
        a + l.foldl (fun sc p => sc + highValueWeight p) 0 := by
    intro l
    induction l with
    | nil => intro a; simp
    | cons p rest ih =>
      intro a
      simp only [List.foldl_cons]
      rw [ih (a + highValueWeight p), ih (0 + highValueWeight p)]
      ring
  simp only [score_document, term_hits_eq_filter_length]
  rw [hfold _ (List.foldl _ 0 query_terms)]

/-! ## C5 — deterministic total ordering of prioritised documents -/

instance : IsAntisymm SDoc sortKeyLt where
  antisymm a b hab hba := by
    exfalso
    rcases hab with h1 | ⟨e1, p1⟩ <;> rcases hba with h2 | ⟨e2, p2⟩
    · exact lt_irrefl _ (h1.trans h2)
    · exact lt_irrefl _ (e2 ▸ h1)
    · exact lt_irrefl _ (e1 ▸ h2)
    · exact lt_irrefl _ (p1.trans p2)

lemma prioritise_perm (documents : List Doc) (query : Str) :
    (prioritise_documents documents query).Perm
      (documents.map (fun d => SDoc.mk d (score_document d (queryTerms query)))) := by
  unfold prioritise_documents
  exact List.perm_insertionSort _ _

lemma prioritise_sorted_lt (documents : List Doc) (query : Str)
    (hnodup : (documents.map Doc.pmid).Nodup) :
    (prioritise_documents documents query).Sorted sortKeyLt := by
  have hle : (prioritise_documents documents query).Sorted sortKeyLe := by
    unfold prioritise_documents
    exact List.sorted_insertionSort _ _
  have hperm := prioritise_perm documents query
  have hnd : ((prioritise_documents documents query).map
      (fun sd => sd.doc.pmid)).Nodup := by
    have hmap := hperm.map (fun sd => sd.doc.pmid)
    rw [List.Perm.nodup_iff hmap]
    simpa [Function.comp] using hnodup
  have hpw : (prioritise_documents documents query).Pairwise
      (fun a b => a.doc.pmid ≠ b.doc.pmid) := by
    simpa [List.Nodup, List.pairwise_map] using hnd
  have hcomb := List.Pairwise.and hle hpw
  refine hcomb.imp ?_
  rintro a b ⟨hab, hne⟩
  rcases hab with h | ⟨e, p⟩
  · exact Or.inl h
  · exact Or.inr ⟨e, lt_of_le_of_ne p hne⟩

/-- C5: for every non-empty document list with pairwise-distinct pmids and
every query, `prioritise_documents` returns the scored documents sorted in
strictly descending `priority_score` with ties broken by ascending pmid (a
total order), every stored score is `score_document` of its document, and the
result does not depend on the input order: any permutation of the input
yields the identical output sequence (and re-running on the same input is the
same function application, hence identical). -/
theorem c5_prioritise_total_deterministic_order (documents : List Doc) (query : Str)
    (hne : documents ≠ [])
    (hnodup : (documents.map Doc.pmid).Nodup) :
    ((prioritise_documents documents query).map SDoc.doc).Perm documents
    ∧ (∀ sd ∈ prioritise_documents documents query,
        sd.priority_score = score_document sd.doc (queryTerms query))
    ∧ (prioritise_documents documents query).Sorted sortKeyLt
    ∧ (∀ documents' : List Doc, documents'.Perm documents →
        prioritise_documents documents' query = prioritise_documents documents query) := by
  have _ := hne
  refine ⟨?_, ?_, prioritise_sorted_lt documents query hnodup, ?_⟩
  · have h := (prioritise_perm documents query).map SDoc.doc
    simpa [Function.comp_def] using h
  · intro sd hsd
    have hmem := ((prioritise_perm documents query).mem_iff).1 hsd
    rcases List.mem_map.1 hmem with ⟨d, _, rfl⟩
    rfl
  · intro documents' hperm'
    have hnodup' : (documents'.map Doc.pmid).Nodup :=
      (List.Perm.nodup_iff (hperm'.map Doc.pmid)).2 hnodup
    have hs' := prioritise_sorted_lt documents' query hnodup'
    have hs := prioritise_sorted_lt documents query hnodup
    have hp : (prioritise_documents documents' query).Perm
        (prioritise_documents documents query) := by
      refine (prioritise_perm documents' query).trans ?_
      refine List.Perm.trans ?_ (prioritise_perm documents query).symm
      exact hperm'.map _
    exact List.eq_of_perm_of_sorted hp hs' hs

/-- C5 witness: the theorem applied to two concrete documents with distinct
pmids (the sortedness component). -/
theorem c5_witness :
    (prioritise_documents
      [⟨"2".toList, "b".toList, [], [], none⟩,
       ⟨"1".toList, "risk".toList, [], [], none⟩] "q".toList).Sorted sortKeyLt :=
  (c5_prioritise_total_deterministic_order
    [⟨"2".toList, "b".toList, [], [], none⟩,
     ⟨"1".toList, "risk".toList, [], [], none⟩] "q".toList
    (by decide) (by decide)).2.2.1

/-! ## Attestation helper lemmas (C2, C10) -/

lemma trimPy_substring (l : Str) : trimPy l <:+: l := by
  unfold trimPy
  have h1 : l.dropWhile isSpacePy <:+ l := List.dropWhile_suffix isSpacePy
  have h2 : (l.dropWhile isSpacePy).reverse.dropWhile isSpacePy <:+
      (l.dropWhile isSpacePy).reverse := List.dropWhile_suffix isSpacePy
  have h3 : ((l.dropWhile isSpacePy).reverse.dropWhile isSpacePy).reverse <+:
      l.dropWhile isSpacePy := by
    have h4 := List.reverse_prefix.mpr h2
    rwa [List.reverse_reverse] at h4
  exact ( List.IsPrefix.isInfix h3).trans ( List.IsSuffix.isInfix h1)

lemma splitSentGo_substring : ∀ (n : ℕ) (s acc : Str),
    ∀ p ∈ splitSentGo n s acc, p <:+: acc.reverse ++ s := by
  intro n
  induction n with
  | zero =>
    intro s acc p hp
    simp only [splitSentGo, List.mem_singleton] at hp
    subst hp
    exact List.IsPrefix.isInfix (List.prefix_append _ _)
  | succ n ih =>
    intro s acc p hp
    match s with
    | [] =>
      simp only [splitSentGo, List.mem_singleton] at hp
      subst hp
      exact List.IsPrefix.isInfix (List.prefix_append _ _)
    | c :: rest =>
      rw [splitSentGo] at hp
      by_cases hcond : isSpacePy c ∧ (acc.head? = some '.' ∨ acc.head? = some '!' ∨
          acc.head? = some '?')
      · rw [if_pos hcond] at hp
        rcases List.mem_cons.1 hp with rfl | hmem
        · exact List.IsPrefix.isInfix (List.prefix_append _ _)
        · have h := ih (rest.dropWhile isSpacePy) [] p hmem
          simp only [List.reverse_nil, List.nil_append] at h
          have hdw : rest.dropWhile isSpacePy <:+ rest := List.dropWhile_suffix isSpacePy
          have hsuf : rest <:+ acc.reverse ++ (c :: rest) := by
            refine ⟨acc.reverse ++ [c], ?_⟩
            simp
          exact (h.trans ( List.IsSuffix.isInfix hdw)).trans ( List.IsSuffix.isInfix hsuf)
      · rw [if_neg hcond] at hp
        have h := ih rest (c :: acc) p hp
        have heq : (c :: acc).reverse ++ rest = acc.reverse ++ (c :: rest) := by
          simp
        rwa [heq] at h

lemma split_sentences_substring (t : Str) :
    ∀ p ∈ split_sentences t, p <:+: t := by
  intro p hp
  unfold split_sentences at hp
  rcases List.mem_filter.1 hp with ⟨hmem, _⟩
  rcases List.mem_map.1 hmem with ⟨q, hq, rfl⟩
  have h1 : q <:+: trimPy t := by
    have := splitSentGo_substring (trimPy t).length (trimPy t) [] q hq
    simpa using this
  exact ((trimPy_substring q).trans h1).trans (trimPy_substring t)

lemma pyInsert_mem {β : Type} {m : List (Str × β)} {k : Str} {v : β} :
    ∀ kv ∈ pyInsert m k v, kv ∈ m ∨ kv = (k, v) := by
  intro kv hkv
  unfold pyInsert at hkv
  by_cases h : m.any (fun kv => kv.1 = k)
  · rw [if_pos h] at hkv
    rcases List.mem_map.1 hkv with ⟨kv', hkv', heq⟩
    by_cases hk : kv'.1 = k
    · right; rw [← heq]; simp [hk]
    · left; rw [← heq]; simpa [hk] using hkv'
  · rw [if_neg h] at hkv
    rcases List.mem_append.1 hkv with hm | hm
    · exact Or.inl hm
    · exact Or.inr (List.mem_singleton.1 hm)

lemma foldl_docsByPmid_inv (l : List Doc) :
    ∀ (acc : List (Str × Doc)),
      ∀ kv ∈ l.foldl (fun m d => pyInsert m d.pmid d) acc,
        kv ∈ acc ∨ (kv.2 ∈ l ∧ kv.2.pmid = kv.1) := by
  induction l with
  | nil => intro acc kv hkv; exact Or.inl hkv
  | cons d rest ih =>
    intro acc kv hkv
    simp only [List.foldl_cons] at hkv
    rcases ih (pyInsert acc d.pmid d) kv hkv with hin | ⟨hmem, hp⟩
    · rcases pyInsert_mem kv hin with hacc | rfl
      · exact Or.inl hacc
      · exact Or.inr ⟨List.mem_cons_self _ _, rfl⟩
    · exact Or.inr ⟨List.mem_cons_of_mem _ hmem, hp⟩

lemma pyGet_docsByPmid {documents : List Doc} {p : Str} {d : Doc}
    (h : pyGet (docsByPmid documents) p = some d) :
    d ∈ documents ∧ d.pmid = p := by
  unfold pyGet at h
  rcases hfind : (docsByPmid documents).find? (fun kv => kv.1 = p) with _ | kv
  · rw [hfind] at h; simp at h
  · rw [hfind] at h
    simp at h
    have hmem := List.mem_of_find?_eq_some hfind
    have hpred := List.find?_some hfind
    have hk : kv.1 = p := by simpa using hpred
    have hinv := foldl_docsByPmid_inv documents [] kv (by simpa [docsByPmid] using hmem)
    rcases hinv with hnil | ⟨hd, hpm⟩
    · simp at hnil
    · rw [h] at hd hpm
      exact ⟨hd, by rw [hpm, hk]⟩

/-- An attestation record is grounded in the document set: it cites the pmid
of some input document, and its `source_text` is a literal substring of that
document's abstract. -/
def grounded (documents : List Doc) (r : AttRecord) : Prop :=
  ∃ d ∈ documents, d.pmid = r.pmid ∧ r.source_text <:+: d.abstract

lemma validateGo_grounded (documents : List Doc) (cands : List (Str × CandMeta)) :
    ∀ acc, (∀ kv ∈ acc, grounded documents kv.2) →
      ∀ kv ∈ validateGo (docsByPmid documents) cands acc, grounded documents kv.2 := by
  induction cands with
  | nil => intro acc hacc kv hkv; exact hacc kv hkv
  | cons cand rest ih =>
    intro acc hacc kv hkv
    obtain ⟨claim, meta⟩ := cand
    rw [validateGo] at hkv
    rcases hget : pyGet (docsByPmid documents) (trimPy meta.pmid) with _ | d
    · simp only [hget] at hkv
      exact ih acc hacc kv hkv
    · simp only [hget] at hkv
      by_cases hcond : trimPy meta.pmid ≠ [] ∧ trimPy meta.source_text ≠ [] ∧
          trimPy meta.source_text <:+: d.abstract
      · rw [if_pos hcond] at hkv
        refine ih _ ?_ kv hkv
        intro kv' hkv'
        rcases pyInsert_mem kv' hkv' with hold | rfl
        · exact hacc kv' hold
        · rcases pyGet_docsByPmid hget with ⟨hd, hp⟩
          exact ⟨d, hd, hp, hcond.2.2⟩
      · rw [if_neg hcond] at hkv
        exact ih acc hacc kv hkv

lemma addSpans_entries (d : Doc) (spans : List Str) :
    ∀ acc, ∀ kv ∈ addSpans d spans acc,
      kv ∈ acc ∨ ∃ s ∈ spans, kv = (addDot s, ⟨d.pmid, s, d.title⟩) := by
  induction spans with
  | nil => intro acc kv hkv; exact Or.inl hkv
  | cons s rest ih =>
    intro acc kv hkv
    rw [addSpans] at hkv
    rcases ih _ kv hkv with hin | ⟨s', hs', rfl⟩
    · by_cases hk : pyHasKey acc (addDot s)
      · rw [if_pos hk] at hin
        exact Or.inl hin
      · rw [if_neg hk] at hin
        rcases List.mem_append.1 hin with hold | hnew
        · exact Or.inl hold
        · exact Or.inr ⟨s, List.mem_cons_self _ _, List.mem_singleton.1 hnew⟩
    · exact Or.inr ⟨s', List.mem_cons_of_mem _ hs', rfl⟩

lemma foldl_fallbackStep_grounded (documents : List Doc) (docs : List Doc)
    (hdocs : ∀ d ∈ docs, d ∈ documents) :
    ∀ st, (∀ kv ∈ st.1, grounded documents kv.2) →
      ∀ kv ∈ (docs.foldl fallbackStep st).1, grounded documents kv.2 := by
  induction docs with
  | nil => intro st hst kv hkv; exact hst kv hkv
  | cons d rest ih =>
    intro st hst kv hkv
    simp only [List.foldl_cons] at hkv
    refine ih (fun d' hd' => hdocs d' (List.mem_cons_of_mem _ hd')) _ ?_ kv hkv
    intro kv' hkv'
    rcases addSpans_entries d _ _ kv' hkv' with hold | ⟨s, hs, rfl⟩
    · exact hst kv' hold
    · have hsent : s ∈ split_sentences d.abstract :=
        List.take_subset 2 _ hs
      exact ⟨d, hdocs d (List.mem_cons_self _ _), rfl, split_sentences_substring _ s hsent⟩

lemma fallback_grounded (documents : List Doc) :
    ∀ kv ∈ (deterministicFallback documents).2, grounded documents kv.2 := by
  intro kv hkv
  unfold deterministicFallback at hkv
  refine foldl_fallbackStep_grounded documents (documents.take 3)
    (fun d hd => List.take_subset 3 documents hd) ([], []) (by simp) kv hkv

/-! ## C2 — the substring trust invariant of the attestation generator -/

/-- C2: for every backend outcome (including adversarial payloads) and every
document set, every entry of the attestation map returned by
`generate_with_attestation` cites the pmid of a document in the input set and
carries a `source_text` that is a literal substring of that document's
abstract.  A candidate failing validation is dropped, never repaired, so a
fabricated `source_text` — one that is not a substring of the cited
document's abstract — never appears in the output. -/
theorem c2_attestation_substring_invariant (backend : Option Payload)
    (query : Str) (documents : List Doc) :
    ∀ kv ∈ (generate_with_attestation backend query documents).2,
      ∃ d ∈ documents, d.pmid = kv.2.pmid ∧ kv.2.source_text <:+: d.abstract := by
  intro kv hkv
  unfold generate_with_attestation at hkv
  have hfall : kv ∈ (deterministicFallback documents).2 → grounded documents kv.2 :=
    fun h => fallback_grounded documents kv h
  rcases backend with _ | data
  · exact hfall hkv
  · simp only at hkv
    by_cases hne : (validate_json_claims data (docsByPmid documents)).2 ≠ []
    · rw [if_pos hne] at hkv
      have hkv6 : kv ∈ validateGo (docsByPmid documents) data.attestations [] := by
        have := List.take_subset 6 (validateGo (docsByPmid documents) data.attestations [])
        exact this hkv
      exact validateGo_grounded documents data.attestations [] (by simp) kv hkv6
    · rw [if_neg hne] at hkv
      exact hfall hkv

/-- C2 witness: the deterministic fallback on one concrete document; its first
attestation entry is grounded in that document. -/
theorem c2_witness :
    ∃ d ∈ [(⟨"9".toList, "T".toList,
      "This first sentence is long enough to pass. This second sentence is also long enough to pass.".toList,
      [], none⟩ : Doc)],
      d.pmid = (⟨"9".toList,
        "This first sentence is long enough to pass.".toList, "T".toList⟩ : AttRecord).pmid
      ∧ (⟨"9".toList, "This first sentence is long enough to pass.".toList,
          "T".toList⟩ : AttRecord).source_text <:+: d.abstract :=
  c2_attestation_substring_invariant none []
    [⟨"9".toList, "T".toList,
      "This first sentence is long enough to pass. This second sentence is also long enough to pass.".toList,
      [], none⟩]
    ("This first sentence is long enough to pass.".toList,
      ⟨"9".toList, "This first sentence is long enough to pass.".toList, "T".toList⟩)
    (by decide)

/-! ## C10 — the attestation map holds at most 6 entries -/

lemma pyInsert_length_le {β : Type} (m : List (Str × β)) (k : Str) (v : β) :
    (pyInsert m k v).length ≤ m.length + 1 := by
  unfold pyInsert
  by_cases h : m.any (fun kv => kv.1 = k)
  · rw [if_pos h, List.length_map]
    omega
  · rw [if_neg h, List.length_append]
    simp

lemma pyInsert_keys_nodup {β : Type} {m : List (Str × β)} {k : Str} {v : β}
    (h : (m.map Prod.fst).Nodup) : ((pyInsert m k v).map Prod.fst).Nodup := by
  unfold pyInsert
  by_cases hany : m.any (fun kv => kv.1 = k)
  · rw [if_pos hany]
    have heq : (m.map (fun kv => if kv.1 = k then (k, v) else kv)).map Prod.fst =
        m.map Prod.fst := by
      rw [List.map_map]
      refine List.map_congr_left ?_
      intro kv _
      by_cases hk : kv.1 = k
      · simp [hk]
      · simp [hk]
    rw [heq]
    exact h
  · rw [if_neg hany, List.map_append]
    rw [List.nodup_append]
    refine ⟨h, by simp, ?_⟩
    intro a ha hb
    simp only [List.map_cons, List.map_nil, List.mem_singleton] at hb
    subst hb
    rcases List.mem_map.1 ha with ⟨kv, hkv, hk⟩
    rw [List.any_eq_true] at hany
    exact hany ⟨kv, hkv, by simpa using hk⟩

lemma validateGo_keys_nodup (dbp : List (Str × Doc)) (cands : List (Str × CandMeta)) :
    ∀ acc, (acc.map Prod.fst).Nodup →
      ((validateGo dbp cands acc).map Prod.fst).Nodup := by
  induction cands with
  | nil => intro acc hacc; exact hacc
  | cons cand rest ih =>
    intro acc hacc
    obtain ⟨claim, meta⟩ := cand
    rw [validateGo]
    rcases hget : pyGet dbp (trimPy meta.pmid) with _ | d
    · simp only
      exact ih acc hacc
    · simp only
      by_cases hcond : trimPy meta.pmid ≠ [] ∧ trimPy meta.source_text ≠ [] ∧
          trimPy meta.source_text <:+: d.abstract
      · rw [if_pos hcond]
        exact ih _ (pyInsert_keys_nodup hacc)
      · rw [if_neg hcond]
        exact ih acc hacc

lemma addSpans_length (d : Doc) (spans : List Str) :
    ∀ acc, (addSpans d spans acc).length ≤ acc.length + spans.length := by
  induction spans with
  | nil => intro acc; simp [addSpans]
  | cons s rest ih =>
    intro acc
    rw [addSpans]
    by_cases hk : pyHasKey acc (addDot s)
    · rw [if_pos hk]
      have := ih acc
      simpa [Nat.add_comm, Nat.add_left_comm] using Nat.le_trans this (by omega)
    · rw [if_neg hk]
      have := ih (acc ++ [(addDot s, ⟨d.pmid, s, d.title⟩)])
      simp only [List.length_append, List.length_cons, List.length_nil] at this ⊢
      omega

lemma addSpans_keys_nodup (d : Doc) (spans : List Str) :
    ∀ acc, (acc.map Prod.fst).Nodup →
      ((addSpans d spans acc).map Prod.fst).Nodup := by
  induction spans with
  | nil => intro acc hacc; exact hacc
  | cons s rest ih =>
    intro acc hacc
    rw [addSpans]
    by_cases hk : pyHasKey acc (addDot s)
    · rw [if_pos hk]
      exact ih acc hacc
    · rw [if_neg hk]
      refine ih _ ?_
      rw [List.map_append, List.nodup_append]
      refine ⟨hacc, by simp, ?_⟩
      intro a ha hb
      simp only [List.map_cons, List.map_nil, List.mem_singleton] at hb
      subst hb
      unfold pyHasKey at hk
      rw [List.any_eq_true] at hk
      rcases List.mem_map.1 ha with ⟨kv, hkv, hkeq⟩
      exact hk ⟨kv, hkv, by simpa using hkeq⟩

lemma foldl_fallback_length (docs : List Doc) :
    ∀ st : List (Str × AttRecord) × List Str,
      ((docs.foldl fallbackStep st).1).length ≤ st.1.length + 2 * docs.length := by
  induction docs with
  | nil => intro st; simp
  | cons d rest ih =>
    intro st
    simp only [List.foldl_cons, List.length_cons]
    refine Nat.le_trans (ih (fallbackStep st d)) ?_
    have h1 : (fallbackStep st d).1.length ≤ st.1.length + 2 := by
      unfold fallbackStep
      refine Nat.le_trans (addSpans_length d _ st.1) ?_
      have : ((split_sentences d.abstract).take 2).length ≤ 2 := by
        simpa using List.length_take_le 2 (split_sentences d.abstract)
      omega
    omega

lemma foldl_fallback_keys_nodup (docs : List Doc) :
    ∀ st : List (Str × AttRecord) × List Str,
      (st.1.map Prod.fst).Nodup →
      (((docs.foldl fallbackStep st).1).map Prod.fst).Nodup := by
  induction docs with
  | nil => intro st hst; exact hst
  | cons d rest ih =>
    intro st hst
    simp only [List.foldl_cons]
    refine ih (fallbackStep st d) ?_
    unfold fallbackStep
    exact addSpans_keys_nodup d _ st.1 hst

/-- C10: for every backend outcome, query and document set, the attestation
map returned by `generate_with_attestation` holds at most 6 entries with
pairwise-distinct claim keys: the generative path truncates the validated,
deduplicated claims to 6, and the deterministic fallback takes at most 2
sentence spans from each of at most 3 documents, skipping duplicate claim
texts. -/
theorem c10_attestation_map_bounded (backend : Option Payload) (query : Str)
    (documents : List Doc) :
    (generate_with_attestation backend query documents).2.length ≤ 6
    ∧ ((generate_with_attestation backend query documents).2.map Prod.fst).Nodup := by
  have hfall_len : (deterministicFallback documents).2.length ≤ 6 := by
    unfold deterministicFallback
    refine Nat.le_trans (foldl_fallback_length (documents.take 3) ([], [])) ?_
    have : (documents.take 3).length ≤ 3 := by
      simpa using List.length_take_le 3 documents
    simp only [List.length_nil]
    omega
  have hfall_nd : ((deterministicFallback documents).2.map Prod.fst).Nodup := by
    unfold deterministicFallback
    exact foldl_fallback_keys_nodup (documents.take 3) ([], []) (by simp)
  unfold generate_with_attestation
  rcases backend with _ | data
  · exact ⟨hfall_len, hfall_nd⟩
  · simp only
    by_cases hne : (validate_json_claims data (docsByPmid documents)).2 ≠ []
    · rw [if_pos hne]
      constructor
      · unfold validate_json_claims
        simpa using List.length_take_le 6 _
      · unfold validate_json_claims
        simp only
        rw [List.map_take]
        exact List.Nodup.sublist (List.take_sublist 6 _)
          (validateGo_keys_nodup (docsByPmid documents) data.attestations [] (by simp))
    · rw [if_neg hne]
      exact ⟨hfall_len, hfall_nd⟩

/-! ## C9 — alignment with zero guideline chunks -/

lemma foldl_insertNone_inv (l : List Str) :
    ∀ acc : List (Str × Option AlignRes),
      ∀ kv ∈ l.foldl (fun m c => pyInsert m c none) acc,
        kv ∈ acc ∨ (kv.2 = none ∧ kv.1 ∈ l) := by
  induction l with
  | nil => intro acc kv hkv; exact Or.inl hkv
  | cons a rest ih =>
    intro acc kv hkv
    simp only [List.foldl_cons] at hkv
    rcases ih (pyInsert acc a none) kv hkv with hin | ⟨hv, hl⟩
    · rcases pyInsert_mem kv hin with hacc | rfl
      · exact Or.inl hacc
      · exact Or.inr ⟨rfl, List.mem_cons_self _ _⟩
    · exact Or.inr ⟨hv, List.mem_cons_of_mem _ hl⟩

lemma pyInsert_key_stable {β : Type} {m : List (Str × β)} {k c : Str} {v : β}
    (h : ∃ kv ∈ m, kv.1 = c) : ∃ kv ∈ pyInsert m k v, kv.1 = c := by
  rcases h with ⟨kv, hkv, hkey⟩
  unfold pyInsert
  by_cases hany : m.any (fun kv => kv.1 = k)
  · rw [if_pos hany]
    have hkey2 : ((if kv.1 = k then (k, v) else kv) : Str × β).1 = c := by
      by_cases hk : kv.1 = k
      · rw [if_pos hk, ← hk]
        exact hkey
      · rw [if_neg hk]
        exact hkey
    exact ⟨_, List.mem_map_of_mem _ hkv, hkey2⟩
  · rw [if_neg hany]
    exact ⟨kv, List.mem_append_left _ hkv, hkey⟩

lemma pyInsert_key_self {β : Type} (m : List (Str × β)) (k : Str) (v : β) :
    ∃ kv ∈ pyInsert m k v, kv.1 = k := by
  unfold pyInsert
  by_cases hany : m.any (fun kv => kv.1 = k)
  · rw [if_pos hany]
    rw [List.any_eq_true] at hany
    rcases hany with ⟨kv0, hkv0, hk0⟩
    have hk0' : kv0.1 = k := by simpa using hk0
    have hkey : ((if kv0.1 = k then (k, v) else kv0) : Str × β).1 = k := by
      rw [if_pos hk0']
    exact ⟨_, List.mem_map_of_mem _ hkv0, hkey⟩
  · rw [if_neg hany]
    exact ⟨(k, v), List.mem_append_right _ (List.mem_singleton_self _), rfl⟩

lemma foldl_insertNone_key (l : List Str) :
    ∀ (acc : List (Str × Option AlignRes)) (c : Str),
      (c ∈ l ∨ ∃ kv ∈ acc, kv.1 = c) →
      ∃ kv ∈ l.foldl (fun m c => pyInsert m c none) acc, kv.1 = c := by
  induction l with
  | nil =>
    intro acc c h
    rcases h with h | h
    · simp at h
    · exact h
  | cons a rest ih =>
    intro acc c h
    simp only [List.foldl_cons]
    rcases h with h | h
    · rcases List.mem_cons.1 h with rfl | hr
      · exact ih _ c (Or.inr (pyInsert_key_self acc c none))
      · exact ih _ c (Or.inl hr)
    · exact ih _ c (Or.inr (pyInsert_key_stable h))

/-- C9: for every claim list and every behaviour of the external TF-IDF
similarity step, supplying an empty guideline-chunk sequence makes
`align_claims_to_guidelines` return exactly the dict `{claim: None for claim
in claims}` without consulting the vector space: every entry maps a claim of
the input to `none`, every input claim is present and looks up to `some
none`, and with three concrete claims the result is literally the
three-entry all-`None` mapping. -/
theorem c9_align_empty_chunks
    (tfidfBest : List GChunk → Str → Option AlignRes) (claims : List Str) :
    (∀ kv ∈ align_claims_to_guidelines tfidfBest claims [],
      kv.2 = none ∧ kv.1 ∈ claims)
    ∧ (∀ c ∈ claims,
        pyGet (align_claims_to_guidelines tfidfBest claims []) c = some none)
    ∧ align_claims_to_guidelines tfidfBest
        ["a".toList, "b".toList, "c".toList] [] =
        [("a".toList, none), ("b".toList, none), ("c".toList, none)] := by
  have hbranch : ∀ cl : List Str, align_claims_to_guidelines tfidfBest cl [] =
      cl.foldl (fun m c => pyInsert m c none) [] := by
    intro cl
    unfold align_claims_to_guidelines
    simp
  refine ⟨?_, ?_, ?_⟩
  · intro kv hkv
    rw [hbranch] at hkv
    rcases foldl_insertNone_inv claims [] kv hkv with h | h
    · simp at h
    · exact ⟨h.1, h.2⟩
  · intro c hc
    rw [hbranch]
    have hkey := foldl_insertNone_key claims [] c (Or.inl hc)
    rcases hkey with ⟨kv, hkv, hkeq⟩
    have hval : kv.2 = none := by
      rcases foldl_insertNone_inv claims [] kv hkv with h | h
      · simp at h
      · exact h.1
    unfold pyGet
    have hsome : (List.find? (fun kv => kv.1 = c)
        (claims.foldl (fun m c => pyInsert m c none)
          ([] : List (Str × Option AlignRes)))).isSome := by
      rw [List.find?_isSome]
      exact ⟨kv, hkv, by simpa using hkeq⟩
    rcases hfind : List.find? (fun kv => kv.1 = c)
        (claims.foldl (fun m c => pyInsert m c none)
          ([] : List (Str × Option AlignRes))) with _ | kv'
    · rw [hfind] at hsome; simp at hsome
    · have hval' : kv'.2 = none := by
        rcases foldl_insertNone_inv claims [] kv'
            (List.mem_of_find?_eq_some hfind) with h | h
        · simp at h
        · exact h.1
      rw [hfind]
      simp [hval']
  · rw [hbranch]
    rfl

/-! ## C6 — guideline-alignment component of the aggregator -/

/-- C6 counterexample: the claim says the aggregator's GA equals (non-`None`
alignments)/(total claims) and is never an all-or-nothing indicator.  With
two claims of which exactly one is aligned, `compute_ga_metrics` yields the
proportional 1/2, but `compute_crts` — handed the non-empty match list —
reports `ga = 1.0`: the aggregator's component is the all-or-nothing
indicator, contradicting the claimed value 1/2. -/
theorem c6_counterexample :
    (compute_crts
      [("c1".toList, PyVal.pdict [("source_text".toList, "s".toList)]),
       ("c2".toList, PyVal.pdict [("source_text".toList, "t".toList)])]
      ⟨false, 0, 0, []⟩ 0 [⟨"src".toList, "p1".toList, 1⟩]).ga = 1
    ∧ (compute_ga_metrics
        [("c1".toList, some ⟨"src".toList, "p1".toList, 1⟩),
         ("c2".toList, none)]).1 = 1/2
    ∧ ((1 : ℚ) ≠ 1/2) := by
  refine ⟨by with_unfolding_all decide, by with_unfolding_all decide, by norm_num⟩

lemma foldl_count_isSome (l : List (Str × Option AlignRes)) : ∀ n : ℕ,
    l.foldl (fun n kv => if kv.2.isSome then n + 1 else n) n =
      n + (l.filter (fun kv => kv.2.isSome)).length := by
  induction l with
  | nil => intro n; simp
  | cons kv rest ih =>
    intro n
    by_cases h : kv.2.isSome <;> simp [List.filter_cons, h, ih] <;> omega

/-- C6 amended: `compute_ga_metrics` (in `guideline_checker.py`) implements
the proportional definition — GA = (non-`None` alignments)/(total claims),
0 for an empty mapping, always within [0, 1] — but the aggregator
`compute_crts` does not: its `ga` component is the all-or-nothing indicator
`1.0 if nice_matches else 0.0`, i.e. 1 exactly when its `nice_matches`
argument is a non-empty list and 0 otherwise. -/
theorem c6_ga_amended :
    (∀ alignment : List (Str × Option AlignRes),
      (compute_ga_metrics alignment).1 =
        (if alignment.length ≠ 0 then
          (((alignment.filter (fun kv => kv.2.isSome)).length : ℚ) /
            (alignment.length : ℚ))
        else 0)
      ∧ 0 ≤ (compute_ga_metrics alignment).1
      ∧ (compute_ga_metrics alignment).1 ≤ 1)
    ∧ (∀ (atts : List (Str × PyVal)) (cs : ConflictSummary) (n : ℕ)
        (nice : List AlignRes),
        (compute_crts atts cs n nice).ga = if nice.isEmpty then 0 else 1) := by
  have hr0 : round2 0 = 0 := by with_unfolding_all decide
  have hr1 : round2 1 = 1 := by with_unfolding_all decide
  constructor
  · intro alignment
    have heq : (compute_ga_metrics alignment).1 =
        (if alignment.length ≠ 0 then
          (((alignment.filter (fun kv => kv.2.isSome)).length : ℚ) /
            (alignment.length : ℚ))
        else 0) := by
      unfold compute_ga_metrics
      simp only [foldl_count_isSome, Nat.zero_add]
    refine ⟨heq, ?_, ?_⟩
    · rw [heq]
      by_cases h : alignment.length ≠ 0
      · rw [if_pos h]
        positivity
      · rw [if_neg h]
    · rw [heq]
      by_cases h : alignment.length ≠ 0
      · rw [if_pos h]
        rw [div_le_one (by positivity)]
        have hle : (alignment.filter (fun kv => kv.2.isSome)).length ≤
            alignment.length := List.length_filter_le _ _
        exact_mod_cast hle
      · rw [if_neg h]
        norm_num
  · intro atts cs n nice
    unfold compute_crts
    by_cases h : nice.isEmpty
    · simp only [h, Bool.not_true, if_neg (by simp : ¬(false = true)), if_pos rfl]
      exact hr0
    · simp only [eq_false_of_ne_true h]
      simp only [Bool.not_false, if_pos rfl, if_neg (by simp : ¬(false = true))]
      exact hr1

/-! ## C1 — audit-responsiveness component of the aggregator -/

/-- C1 evaluation: `compute_crts` as `src/modules/crts.py` defines it takes
no `k_seconds` parameter at all and computes `ar = 1 / L`, not
`min(1, k_seconds / L)` — its caller `app.py` passes `k_seconds=5.0` (and
documents AR* as `min(1,k/L)`), a keyword the function rejects.  With a
granular attestation (`L = 2`) the claimed formula at the caller's
`k_seconds = 5.0` gives `min(1, 5/2) = 1` while the code's `ar` is `1/2`;
without one (`L = 5`) the claimed formula gives `min(1, 5/5) = 1` while the
code's `ar` is `1/5`. -/
theorem c1_crts_ar_code_eval :
    (compute_crts [("c".toList, PyVal.pdict [("source_text".toList, "s".toList)])]
      ⟨false, 0, 0, []⟩ 0 []).ar = 1/2
    ∧ (compute_crts [("c".toList, PyVal.pdict [("source_text".toList, "s".toList)])]
        ⟨false, 0, 0, []⟩ 0 []).L = 2
    ∧ min 1 ((5 : ℚ)/2) = 1
    ∧ ((1 : ℚ)/2 ≠ 1)
    ∧ (compute_crts [("c".toList, PyVal.pstr ("plain".toList))]
        ⟨false, 0, 0, []⟩ 0 []).ar = 1/5
    ∧ (compute_crts [("c".toList, PyVal.pstr ("plain".toList))]
        ⟨false, 0, 0, []⟩ 0 []).L = 5
    ∧ min 1 ((5 : ℚ)/5) = 1
    ∧ ((1 : ℚ)/5 ≠ 1) := by
  refine ⟨by with_unfolding_all decide, by with_unfolding_all decide, ?_,
    by norm_num, by with_unfolding_all decide, by with_unfolding_all decide, ?_,
    by norm_num⟩
  · rw [min_eq_left (by norm_num)]
  · rw [min_eq_left (by norm_num)]

/-! ## C3 — weight renormalisation and the composite record -/

/-- C3 evaluation of the code that exists: the sidebar renormalisation of
`app.py` falls back to the default 0.30/0.30/0.20/0.20 split (summing to 1)
when the supplied weights sum to zero, and otherwise divides by the sum so
the renormalised weights sum to 1.  The record part of the claim fails in
`src/modules/crts.py`: `compute_crts` accepts no `weights` (or `k_seconds` or
`guideline_alignment`) argument and returns only `{sf, crr, ar, ga, L}` —
no composite `crts` value and no weights — so `app.py`'s call and its reads
of `crts['crts']` and `crts['weights']` cannot succeed. -/
theorem c3_weights_code_eval :
    normalise_weights 0 0 0 0 = (3/10, 3/10, 2/10, 2/10)
    ∧ ((3 : ℚ)/10 + 3/10 + 2/10 + 2/10 = 1)
    ∧ normalise_weights (3/10) (3/10) (3/10) (3/10) = (1/4, 1/4, 1/4, 1/4)
    ∧ ((1 : ℚ)/4 + 1/4 + 1/4 + 1/4 = 1)
    ∧ (∀ a b c d : ℚ, 0 < a + b + c + d →
        (normalise_weights a b c d).1 + (normalise_weights a b c d).2.1 +
          (normalise_weights a b c d).2.2.1 + (normalise_weights a b c d).2.2.2 = 1) := by
  refine ⟨by with_unfolding_all decide, by norm_num,
    by with_unfolding_all decide, by norm_num, ?_⟩
  intro a b c d hpos
  unfold normalise_weights
  have hne : a + b + c + d ≠ 0 := ne_of_gt hpos
  rw [if_neg hne]
  field_simp
